import Mathlib

/-!
Verification of the zepter repository's natural-language specification
against a shallow embedding of its Rust sources.

Conventions of the embedding:
* Rust BTreeMap / BTreeSet containers are modelled as duplicate-free
  association lists / lists.  The tree containers iterate in key order,
  the list model iterates in insertion order; every property proved
  below is independent of the iteration order of these containers.
* Fallible Rust code (functions returning Result, or code that can
  panic) is modelled with explicit result types; a panic is a
  distinguished outcome, never an ordinary value.
* File IO (reading manifests, lib.rs files, ...) is abstracted into
  explicit inputs of the corresponding model functions.
-/

namespace Zepter

/-! ## Character-level string operations

Rust str operations used by the embedded code (split, contains, replace
of a one-character pattern, prefix stripping, comparison, whitespace
tests, integer parsing) are modelled structurally on the character list
of the string; the built-in String functions with the same meaning do
not reduce inside the kernel. -/

namespace Str

/-- str::split(c) as the list of fragments. -/
def splitCharAux (c : Char) : List Char → List Char → List (List Char)
  | [], acc => [acc.reverse]
  | x :: xs, acc =>
    if x = c then acc.reverse :: splitCharAux c xs []
    else splitCharAux c xs (x :: acc)

def splitChar (s : String) (c : Char) : List String :=
  (splitCharAux c s.data []).map String.mk

/-- str::contains(c). -/
def containsChar (s : String) (c : Char) : Bool :=
  s.data.any (fun x => x = c)

/-- str::replace(c, "") for a one-character pattern. -/
def removeChar (s : String) (c : Char) : String :=
  String.mk (s.data.filter (fun x => x ≠ c))

/-- str::split_once(c): the fragments before and after the first
occurrence of c, when c occurs. -/
def splitOnceChar (s : String) (c : Char) : Option (String × String) :=
  match s.data.findIdx? (fun x => x = c) with
  | none => none
  | some i => some (String.mk (s.data.take i), String.mk (s.data.drop (i + 1)))

/-- str::strip_prefix(c) for a one-character pattern. -/
def stripPrefixChar (s : String) (c : Char) : Option String :=
  match s.data with
  | [] => none
  | x :: xs => if x = c then some (String.mk xs) else none

/-- Byte-lexicographic str comparison (<). -/
def ltChars : List Char → List Char → Bool
  | [], [] => false
  | [], _ :: _ => true
  | _ :: _, [] => false
  | a :: as', b :: bs =>
    if a < b then true else if b < a then false else ltChars as' bs

def strLt (a b : String) : Bool := ltChars a.data b.data

/-- str::trim().is_empty(): every character is whitespace. -/
def trimEmpty (s : String) : Bool := s.data.all (fun c => c.isWhitespace)

/-- u32::from_str: digits only (an optional leading +), value below 2^32. -/
def parseU32 (s : String) : Option Nat :=
  let ds := match s.data with
    | x :: xs => if x = Char.ofNat 43 then xs else s.data
    | [] => []
  if ds.isEmpty then none
  else if ds.all (fun c => c.isDigit) then
    let v := ds.foldl (fun acc c => acc * 10 + (c.toNat - 48)) 0
    if v < 4294967296 then some v else none
  else none

end Str

/-! ## src/dag.rs

The Dag structure stores its edge relation as a map from nodes to the set
of their direct dependencies (field comment in the source: Dependant ->
Dependency).  BTreeMap T (BTreeSet T) is modelled as an association list
with unique keys whose values are duplicate-free lists. -/

structure Dag (T : Type) where
  edges : List (T × List T)
deriving DecidableEq, Repr

variable {T : Type} [DecidableEq T]

namespace Dag

/-- BTreeMap.get: the value list stored under key a, if any. -/
def edgesGet (g : Dag T) (a : T) : Option (List T) :=
  (g.edges.find? (fun p => p.1 = a)).map (fun p => p.2)

/-- BTreeSet.insert on the duplicate-free list model. -/
def setInsert (vs : List T) (b : T) : List T :=
  if b ∈ vs then vs else vs ++ [b]

/-- entry(from).or_default().insert(to) on the association-list model. -/
def entryInsert (a b : T) : List (T × List T) → List (T × List T)
  | [] => [(a, [b])]
  | (k, vs) :: rest =>
    if k = a then (k, setInsert vs b) :: rest else (k, vs) :: entryInsert a b rest

/-- Dag::add_edge: connect two nodes
(self.edges.entry(from).or_default().insert(to)). -/
def add_edge (g : Dag T) (a b : T) : Dag T :=
  ⟨entryInsert a b g.edges⟩

/-- entry(node).or_default() on the association-list model. -/
def entryDefault (a : T) : List (T × List T) → List (T × List T)
  | [] => [(a, [])]
  | (k, vs) :: rest =>
    if k = a then (k, vs) :: rest else (k, vs) :: entryDefault a rest

/-- Dag::add_node: add a node to the Dag without any edges
(self.edges.entry(node).or_default()). -/
def add_node (g : Dag T) (a : T) : Dag T :=
  ⟨entryDefault a g.edges⟩

/-- Dag::connected: whether from is directly connected to to via an edge
(self.edges.get(from).map_or(false, |v| v.contains(to))). -/
def connected (g : Dag T) (a b : T) : Bool :=
  match edgesGet g a with
  | none => false
  | some vs => b ∈ vs

/-- Dag::lhs_contains: whether from appears on the lhs of the edge relation
(self.edges.contains_key(from)). -/
def lhs_contains (g : Dag T) (a : T) : Bool :=
  g.edges.any (fun p => p.1 = a)

/-- Dag::rhs_contains: whether to appears on the rhs of the edge relation
(self.edges.values().any(|v| v.contains(to))). -/
def rhs_contains (g : Dag T) (b : T) : Bool :=
  g.edges.any (fun p => b ∈ p.2)

/-- All nodes occurring in the edge relation (every key and every value). -/
def nodesOf (g : Dag T) : List T :=
  g.edges.map (fun p => p.1) ++ (g.edges.map (fun p => p.2)).flatten

theorem edgesGet_isSome_mem_nodesOf {g : Dag T} {a : T} (h : (edgesGet g a).isSome) :
    a ∈ nodesOf g := by
  unfold edgesGet at h
  unfold nodesOf
  cases hf : g.edges.find? (fun p => p.1 = a) with
  | none => rw [hf] at h; simp at h
  | some p =>
    have hp := List.find?_some hf
    have hmem := List.mem_of_find?_eq_some hf
    simp only [decide_eq_true_eq] at hp
    subst hp
    exact List.mem_append_left _ (List.mem_map_of_mem _ hmem)

theorem mem_neighbors_mem_nodesOf {g : Dag T} {a : T} {vs : List T} {b : T}
    (h : edgesGet g a = some vs) (hb : b ∈ vs) : b ∈ nodesOf g := by
  unfold edgesGet at h
  unfold nodesOf
  cases hf : g.edges.find? (fun p => p.1 = a) with
  | none => rw [hf] at h; simp at h
  | some p =>
    rw [hf] at h
    simp only [Option.map_some', Option.some.injEq] at h
    subst h
    have hmem := List.mem_of_find?_eq_some hf
    refine List.mem_append_right _ ?_
    exact List.mem_flatten.mpr ⟨p.2, List.mem_map_of_mem _ hmem, hb⟩

/-- Helper for the termination measure of the DFS loop: marking a fresh
node from the universe as visited strictly shrinks the unvisited part. -/
theorem filter_cons_visited_le (univ visited : List T) (a : T) :
    (univ.filter (fun x => decide (x ∉ a :: visited))).length ≤
      (univ.filter (fun x => decide (x ∉ visited))).length := by
  apply List.Sublist.length_le
  apply List.monotone_filter_right
  intro x hx
  simp only [decide_eq_true_eq, List.mem_cons, not_or] at hx ⊢
  exact hx.2

theorem filter_cons_visited_lt (univ visited : List T) (a : T)
    (ha : a ∈ univ) (hv : a ∉ visited) :
    (univ.filter (fun x => decide (x ∉ a :: visited))).length <
      (univ.filter (fun x => decide (x ∉ visited))).length := by
  induction univ with
  | nil => cases ha
  | cons u us ih =>
    by_cases hu : u = a
    · subst hu
      rw [List.filter_cons_of_neg (by simp), List.filter_cons_of_pos (by simpa using hv)]
      have hle := filter_cons_visited_le us visited u
      simp only [List.length_cons]
      omega
    · have ha' : a ∈ us := by
        cases ha with
        | head => exact absurd rfl hu
        | tail _ h => exact h
      have hlt := ih ha'
      by_cases hmem : u ∈ visited
      · rw [List.filter_cons_of_neg (by simp [List.mem_cons, hmem]),
          List.filter_cons_of_neg (by simpa using hmem)]
        exact hlt
      · rw [List.filter_cons_of_pos (by simp [List.mem_cons, hmem, hu]),
          List.filter_cons_of_pos (by simpa using hmem)]
        simpa using hlt

theorem filter_cons_visited_eq (univ visited : List T) (a : T) (ha : a ∉ univ) :
    (univ.filter (fun x => decide (x ∉ a :: visited))).length =
      (univ.filter (fun x => decide (x ∉ visited))).length := by
  congr 1
  apply List.filter_congr
  intro x hx
  have : x ≠ a := fun h => ha (h ▸ hx)
  simp [List.mem_cons, this]

/-- The shared search loop of Dag::any_path and Dag::reachable_predicate
(the two Rust functions are textually identical except for the found
check, which is node == to in any_path and pred(node) in
reachable_predicate; the loop body is embedded once here).

State: visited is the BTreeSet of already visited nodes, stack is the
Vec of (node, path) pairs with its top as the list head.  One loop
iteration pops the top of the stack, skips it when visited, returns its
path when found, and otherwise pushes every neighbor with the extended
path (the Rust for-loop pushes neighbors in iteration order, so the last
neighbor ends on top; hence the reversed map below). -/
def dfs_find (g : Dag T) (f : T → Bool) (visited : List T)
    (stack : List (T × List T)) : Option (List T) :=
  match stack with
  | [] => none
  | (node, path) :: rest =>
    if node ∈ visited then
      dfs_find g f visited rest
    else if f node then
      -- return path.try_into().ok(): Path::try_from fails on an empty vector
      if path.isEmpty then none else some path
    else
      dfs_find g f (node :: visited)
        ((((edgesGet g node).getD []).reverse.map (fun nb => (nb, path ++ [nb]))) ++ rest)
termination_by (((nodesOf g).filter (fun x => decide (x ∉ visited))).length, stack.length)
decreasing_by
  · apply Prod.Lex.right
    simp
  · rename_i hvis _hfound
    by_cases hmem : k ∈ nodesOf g
    · exact Prod.Lex.left _ _ (filter_cons_visited_lt _ _ _ hmem hvis)
    · have heq := filter_cons_visited_eq (nodesOf g) visited k hmem
      have hnone : edgesGet g k = none := by
        cases h : edgesGet g k with
        | none => rfl
        | some vs =>
          exact absurd (edgesGet_isSome_mem_nodesOf (by simp [h])) hmem
      rw [heq, hnone]
      apply Prod.Lex.right
      simp

/-- Dag::any_path: find any path from a to b.  Initial state: empty
visited set, stack containing the single entry (from, vec![from]). -/
def any_path (g : Dag T) (a b : T) : Option (List T) :=
  dfs_find g (fun n => n = b) [] [(a, [a])]

/-- Dag::reachable_predicate: check whether any node fulfilling pred can
be reached from from, returning the first path found. -/
def reachable_predicate (g : Dag T) (a : T) (pred : T → Bool) : Option (List T) :=
  dfs_find g pred [] [(a, [a])]

/-- DFS reachability: the reflexive-transitive closure of the direct
edge relation (every node reaches itself in zero hops). -/
inductive Reaches (g : Dag T) : T → T → Prop
  | refl (a : T) : Reaches g a a
  | step {a b c : T} : connected g a b = true → Reaches g b c → Reaches g a c

theorem connected_of_mem_neighbors {g : Dag T} {k nb : T}
    (h : nb ∈ (edgesGet g k).getD []) : connected g k nb = true := by
  unfold connected
  cases hg : edgesGet g k with
  | none => rw [hg] at h; simp at h
  | some vs => rw [hg] at h; simpa using h

theorem edgesGet_eq_none_of_not_lhs {g : Dag T} {a : T}
    (h : lhs_contains g a = false) : edgesGet g a = none := by
  unfold edgesGet
  cases hf : g.edges.find? (fun p => p.1 = a) with
  | none => rfl
  | some p =>
    exfalso
    have hp := List.find?_some hf
    have hmem := List.mem_of_find?_eq_some hf
    unfold lhs_contains at h
    have : g.edges.any (fun p => p.1 = a) = true :=
      List.any_eq_true.mpr ⟨p, hmem, hp⟩
    rw [h] at this
    exact Bool.false_ne_true this

/-- A set of nodes that is closed under outgoing edges contains every
node reachable from one of its members. -/
theorem reaches_mem_closed {g : Dag T} {S : List T}
    (hcl : ∀ v ∈ S, ∀ w, connected g v w = true → w ∈ S) {x y : T}
    (hx : x ∈ S) (hr : Reaches g x y) : y ∈ S := by
  induction hr with
  | refl => exact hx
  | step hc _ ih => exact ih (hcl _ hx _ hc)

/-- A nonempty chain of direct edges witnesses reachability of its last
node from its first node. -/
theorem chain_reaches {g : Dag T} :
    ∀ (p : List T) (a b : T), p.head? = some a → p.getLast? = some b →
      List.Chain' (fun x y => connected g x y = true) p → Reaches g a b
  | [], a, b, h, _, _ => by simp at h
  | [x], a, b, h, hl, _ => by
    simp at h hl
    subst h; subst hl
    exact Reaches.refl _
  | x :: y :: rest, a, b, h, hl, hc => by
    simp only [List.head?_cons, Option.some.injEq] at h
    subst h
    rw [List.chain'_cons] at hc
    have hl' : (y :: rest).getLast? = some b := by
      rw [List.getLast?_cons_cons] at hl
      exact hl
    exact Reaches.step hc.1 (chain_reaches (y :: rest) y b rfl hl' hc.2)

/-- Invariant on a DFS stack entry: its path starts at the search root,
ends at the entry's node, and follows direct edges. -/
def EntryInv (g : Dag T) (a : T) (e : T × List T) : Prop :=
  e.2.head? = some a ∧ e.2.getLast? = some e.1 ∧
    List.Chain' (fun x y => connected g x y = true) e.2

/-- Soundness of the DFS loop: a returned path starts at the search root,
follows direct edges, and ends in a node accepted by the found check. -/
theorem dfs_find_some_spec (g : Dag T) (f : T → Bool) (a : T) :
    ∀ visited stack, (∀ e ∈ stack, EntryInv g a e) →
      ∀ p, dfs_find g f visited stack = some p →
        p.head? = some a ∧ List.Chain' (fun x y => connected g x y = true) p ∧
          ∃ n, f n = true ∧ p.getLast? = some n := by
  intro visited stack
  induction visited, stack using dfs_find.induct g f with
  | case1 visited =>
    intro _ p hp
    simp [dfs_find] at hp
  | case2 visited k vs rest hk ih =>
    intro hinv p hp
    simp only [dfs_find, if_pos hk] at hp
    exact ih (fun e he => hinv e (List.mem_cons_of_mem _ he)) p hp
  | case3 visited k vs rest hk hf hemp =>
    intro hinv p hp
    have hhead := (hinv (k, vs) (List.mem_cons_self _ _)).1
    rw [List.isEmpty_iff] at hemp
    rw [hemp] at hhead
    simp at hhead
  | case4 visited k vs rest hk hf hemp =>
    intro hinv p hp
    simp only [dfs_find, if_neg hk, if_pos hf, if_neg hemp] at hp
    cases hp
    exact ⟨(hinv (k, vs) (List.mem_cons_self _ _)).1,
      (hinv (k, vs) (List.mem_cons_self _ _)).2.2,
      k, hf, (hinv (k, vs) (List.mem_cons_self _ _)).2.1⟩
  | case5 visited k vs rest hk hf ih =>
    intro hinv p hp
    simp only [dfs_find, if_neg hk, if_neg hf] at hp
    refine ih ?_ p hp
    intro e he
    rcases List.mem_append.mp he with hpush | hrest
    · rcases List.mem_map.mp hpush with ⟨nb, hnb, rfl⟩
      have hnb' : nb ∈ (edgesGet g k).getD [] := List.mem_reverse.mp hnb
      have hconn := connected_of_mem_neighbors hnb'
      have hke := hinv (k, vs) (List.mem_cons_self _ _)
      have hvs_ne : vs ≠ [] := by
        intro hnil
        rw [hnil] at hke
        simp [EntryInv] at hke
      refine ⟨?_, ?_, ?_⟩
      · cases vs with
        | nil => exact absurd rfl hvs_ne
        | cons v vs' =>
          have hv : v = a := by simpa using hke.1
          simp [hv]
      · exact List.getLast?_concat _
      · refine List.Chain'.append hke.2.2 (List.chain'_singleton nb) ?_
        intro x hx y hy
        simp only [List.head?_cons, Option.mem_def, Option.some.injEq] at hy
        rw [Option.mem_def, hke.2.1] at hx
        cases hx
        cases hy
        exact hconn
    · exact hinv e (List.mem_cons_of_mem _ hrest)

/-- Completeness of the DFS loop: when the search returns none, no node
accepted by the found check is reachable from any node covered by the
current search state (provided the state invariants hold). -/
theorem dfs_find_none_spec (g : Dag T) (f : T → Bool) :
    ∀ visited stack,
      dfs_find g f visited stack = none →
      (∀ v ∈ visited, f v = false) →
      (∀ v ∈ visited, ∀ w, connected g v w = true →
        w ∈ visited ∨ ∃ e ∈ stack, e.1 = w) →
      (∀ e ∈ stack, e.2 ≠ ([] : List T)) →
      ∀ x, (x ∈ visited ∨ ∃ e ∈ stack, e.1 = x) →
        ∀ y, Reaches g x y → f y = false := by
  intro visited stack
  induction visited, stack using dfs_find.induct g f with
  | case1 visited =>
    intro _ h1 h2 _ x hx y hr
    have hx' : x ∈ visited := by
      rcases hx with hx | ⟨e, he, _⟩
      · exact hx
      · simp at he
    have hcl : ∀ v ∈ visited, ∀ w, connected g v w = true → w ∈ visited := by
      intro v hv w hw
      rcases h2 v hv w hw with h | ⟨e, he, _⟩
      · exact h
      · simp at he
    exact h1 y (reaches_mem_closed hcl hx' hr)
  | case2 visited k vs rest hk ih =>
    intro hn h1 h2 h3 x hx y hr
    simp only [dfs_find, if_pos hk] at hn
    refine ih hn h1 ?_ (fun e he => h3 e (List.mem_cons_of_mem _ he)) x ?_ y hr
    · intro v hv w hw
      rcases h2 v hv w hw with h | ⟨e, he, he1⟩
      · exact Or.inl h
      · rcases List.mem_cons.mp he with rfl | he'
        · exact Or.inl (he1 ▸ hk)
        · exact Or.inr ⟨e, he', he1⟩
    · rcases hx with h | ⟨e, he, he1⟩
      · exact Or.inl h
      · rcases List.mem_cons.mp he with rfl | he'
        · exact Or.inl (he1 ▸ hk)
        · exact Or.inr ⟨e, he', he1⟩
  | case3 visited k vs rest hk hf hemp =>
    intro hn h1 h2 h3 x hx y hr
    exfalso
    rw [List.isEmpty_iff] at hemp
    exact h3 (k, vs) (List.mem_cons_self _ _) hemp
  | case4 visited k vs rest hk hf hemp =>
    intro hn h1 h2 h3 x hx y hr
    exfalso
    simp only [dfs_find, if_neg hk, if_pos hf, if_neg hemp] at hn
    exact Option.some_ne_none _ hn
  | case5 visited k vs rest hk hf ih =>
    intro hn h1 h2 h3 x hx y hr
    simp only [dfs_find, if_neg hk, if_neg hf] at hn
    have hf' : f k = false := Bool.eq_false_iff.mpr hf
    refine ih hn ?_ ?_ ?_ x ?_ y hr
    · intro v hv
      rcases List.mem_cons.mp hv with rfl | hv'
      · exact hf'
      · exact h1 v hv'
    · intro v hv w hw
      rcases List.mem_cons.mp hv with rfl | hv'
      · -- the freshly visited node: all its neighbors were pushed
        refine Or.inr ⟨(w, vs ++ [w]), ?_, rfl⟩
        refine List.mem_append_left _ ?_
        refine List.mem_map.mpr ⟨w, ?_, rfl⟩
        refine List.mem_reverse.mpr ?_
        unfold connected at hw
        cases hg : edgesGet g v with
        | none => rw [hg] at hw; simp at hw
        | some ns => rw [hg] at hw; simp at hw ⊢; exact hw
      · rcases h2 v hv' w hw with h | ⟨e, he, he1⟩
        · exact Or.inl (List.mem_cons_of_mem _ h)
        · rcases List.mem_cons.mp he with rfl | he'
          · exact Or.inl (he1 ▸ List.mem_cons_self _ _)
          · exact Or.inr ⟨e, List.mem_append_right _ he', he1⟩
    · intro e he
      rcases List.mem_append.mp he with hpush | hrest
      · rcases List.mem_map.mp hpush with ⟨nb, _, rfl⟩
        simp
      · exact h3 e (List.mem_cons_of_mem _ hrest)
    · rcases hx with h | ⟨e, he, he1⟩
      · exact Or.inl (List.mem_cons_of_mem _ h)
      · rcases List.mem_cons.mp he with rfl | he'
        · exact Or.inl (he1 ▸ List.mem_cons_self _ _)
        · exact Or.inr ⟨e, List.mem_append_right _ he', he1⟩

theorem mem_setInsert_self (vs : List T) (b : T) : b ∈ setInsert vs b := by
  unfold setInsert
  by_cases h : b ∈ vs
  · rw [if_pos h]; exact h
  · rw [if_neg h]; exact List.mem_append_right _ (List.mem_singleton.mpr rfl)

theorem setInsert_idem (vs : List T) (b : T) :
    setInsert (setInsert vs b) b = setInsert vs b := by
  unfold setInsert
  rw [if_pos]
  exact mem_setInsert_self vs b

theorem entryInsert_idem (a b : T) (l : List (T × List T)) :
    entryInsert a b (entryInsert a b l) = entryInsert a b l := by
  induction l with
  | nil => simp [entryInsert, setInsert]
  | cons p rest ih =>
    obtain ⟨k, vs⟩ := p
    by_cases hk : k = a
    · simp only [entryInsert, if_pos hk]
      rw [setInsert_idem]
    · simp only [entryInsert, if_neg hk, ih]

theorem entryDefault_idem (a : T) (l : List (T × List T)) :
    entryDefault a (entryDefault a l) = entryDefault a l := by
  induction l with
  | nil => simp [entryDefault]
  | cons p rest ih =>
    obtain ⟨k, vs⟩ := p
    by_cases hk : k = a
    · simp only [entryDefault, if_pos hk]
    · simp only [entryDefault, if_neg hk, ih]

theorem any_fst_entryInsert (a b : T) (l : List (T × List T)) :
    (entryInsert a b l).any (fun p => p.1 = a) = true := by
  induction l with
  | nil => simp [entryInsert]
  | cons p rest ih =>
    obtain ⟨k, vs⟩ := p
    by_cases hk : k = a
    · simp [entryInsert, if_pos hk, hk]
    · simp only [entryInsert, if_neg hk, List.any_cons, ih, Bool.or_true]

theorem any_snd_entryInsert (a b : T) (l : List (T × List T)) :
    (entryInsert a b l).any (fun p => b ∈ p.2) = true := by
  induction l with
  | nil => simp [entryInsert]
  | cons p rest ih =>
    obtain ⟨k, vs⟩ := p
    by_cases hk : k = a
    · simp only [entryInsert, if_pos hk, List.any_cons]
      have := mem_setInsert_self vs b
      simp [this]
    · simp only [entryInsert, if_neg hk, List.any_cons, ih, Bool.or_true]

/-- Claim C1: any_path(a, b) returns Some if and only if b is reachable
from a under DFS reachability (every node reaching itself in zero hops),
and a returned path starts at a, ends at b, and follows direct edges. -/
theorem claim_C1_any_path_correct (g : Dag T) (a b : T) :
    ((any_path g a b).isSome ↔ Reaches g a b) ∧
    ∀ p, any_path g a b = some p →
      p.head? = some a ∧ p.getLast? = some b ∧
        List.Chain' (fun x y => connected g x y = true) p := by
  have hinit : ∀ e ∈ ([(a, [a])] : List (T × List T)), EntryInv g a e := by
    intro e he
    rcases List.mem_singleton.mp he with rfl
    exact ⟨rfl, rfl, List.chain'_singleton a⟩
  have hsome : ∀ p, any_path g a b = some p →
      p.head? = some a ∧ p.getLast? = some b ∧
        List.Chain' (fun x y => connected g x y = true) p := by
    intro p hp
    obtain ⟨hhead, hchain, n, hfn, hlast⟩ :=
      dfs_find_some_spec g (fun n => n = b) a [] [(a, [a])] hinit p hp
    have hn : n = b := by simpa using hfn
    exact ⟨hhead, hn ▸ hlast, hchain⟩
  refine ⟨⟨?_, ?_⟩, hsome⟩
  · intro h
    obtain ⟨p, hp⟩ := Option.isSome_iff_exists.mp h
    obtain ⟨hhead, hlast, hchain⟩ := hsome p hp
    exact chain_reaches p a b hhead hlast hchain
  · intro hr
    by_contra h
    rw [Option.not_isSome_iff_eq_none] at h
    have := dfs_find_none_spec g (fun n => n = b) [] [(a, [a])] h
      (by intro v hv; simp at hv)
      (by intro v hv; simp at hv)
      (by intro e he; rcases List.mem_singleton.mp he with rfl; simp)
      a (Or.inr ⟨(a, [a]), List.mem_singleton.mpr rfl, rfl⟩) b hr
    simp at this

/-- Witness for C1 on the one-edge graph 0 -> 1. -/
theorem claim_C1_witness :
    ((any_path (Dag.mk [((0 : Nat), [1])]) 0 1).isSome ↔
        Reaches (Dag.mk [((0 : Nat), [1])]) 0 1) ∧
    ([0, 1].head? = some (0 : Nat) ∧ [0, 1].getLast? = some 1 ∧
      List.Chain' (fun x y => connected (Dag.mk [((0 : Nat), [1])]) x y = true) [0, 1]) :=
  ⟨(claim_C1_any_path_correct (Dag.mk [((0 : Nat), [1])]) 0 1).1,
   (claim_C1_any_path_correct (Dag.mk [((0 : Nat), [1])]) 0 1).2 [0, 1]
     (by simp [any_path, dfs_find, edgesGet, nodesOf])⟩

/-- Counterexample to C6 as stated: after add_edge(0, 1) on the empty
graph, node 0 is on the left-hand side of the edge relation but node 1
is not (add_edge only creates a key for the from endpoint). -/
theorem claim_C6_counterexample :
    lhs_contains (add_edge (Dag.mk ([] : List (Nat × List Nat))) 0 1) 0 = true ∧
    lhs_contains (add_edge (Dag.mk ([] : List (Nat × List Nat))) 0 1) 1 = false := by
  decide

/-- Amended C6: after add_edge(a, b) the endpoint a exists on the
left-hand side and b on the right-hand side of the edge relation, and
add_edge and add_node are idempotent. -/
theorem claim_C6_add_edge_amended (g : Dag T) (a b : T) :
    lhs_contains (add_edge g a b) a = true ∧
    rhs_contains (add_edge g a b) b = true ∧
    add_edge (add_edge g a b) a b = add_edge g a b ∧
    add_node (add_node g a) a = add_node g a := by
  refine ⟨?_, ?_, ?_, ?_⟩
  · exact any_fst_entryInsert a b g.edges
  · exact any_snd_entryInsert a b g.edges
  · show Dag.mk (entryInsert a b (entryInsert a b g.edges)) = Dag.mk (entryInsert a b g.edges)
    rw [entryInsert_idem]
  · show Dag.mk (entryDefault a (entryDefault a g.edges)) = Dag.mk (entryDefault a g.edges)
    rw [entryDefault_idem]

/-- Counterexample to C7 as stated: on the empty graph the node 0 is
unknown (on neither side of the edge relation), yet any_path(0, 0)
returns Some (the path consisting of the node itself), because the
search accepts the start node before looking at any edge. -/
theorem claim_C7_counterexample :
    lhs_contains (Dag.mk ([] : List (Nat × List Nat))) 0 = false ∧
    rhs_contains (Dag.mk ([] : List (Nat × List Nat))) 0 = false ∧
    any_path (Dag.mk ([] : List (Nat × List Nat))) 0 0 = some [0] := by
  refine ⟨rfl, rfl, ?_⟩
  simp [any_path, dfs_find, edgesGet]

/-- Amended C7: queries on a node unknown to the graph never panic (the
model functions are total) and return none provided the query cannot
already succeed on the start node itself: any_path(u, t) returns none
whenever u is distinct from t, and reachable_predicate(u, pred) returns
none whenever pred rejects u. -/
theorem claim_C7_unknown_node_amended (g : Dag T) (u t : T) (pred : T → Bool)
    (h1 : lhs_contains g u = false) (h2 : rhs_contains g u = false) :
    (u ≠ t → any_path g u t = none) ∧
    (pred u = false → reachable_predicate g u pred = none) := by
  have _ := h2
  have hget := edgesGet_eq_none_of_not_lhs h1
  constructor
  · intro hne
    unfold any_path
    simp [dfs_find, hget, hne]
  · intro hp
    unfold reachable_predicate
    simp [dfs_find, hget, hp]

/-- Witness for the amended C7 on the empty graph. -/
theorem claim_C7_witness :
    any_path (Dag.mk ([] : List (Nat × List Nat))) 0 1 = none ∧
    reachable_predicate (Dag.mk ([] : List (Nat × List Nat))) 0 (fun _ => false) = none :=
  ⟨(claim_C7_unknown_node_amended (Dag.mk ([] : List (Nat × List Nat))) 0 1
      (fun _ => false) rfl rfl).1 (by decide),
   (claim_C7_unknown_node_amended (Dag.mk ([] : List (Nat × List Nat))) 0 1
      (fun _ => false) rfl rfl).2 rfl⟩

end Dag

/-! ## src/cmd/lint.rs: PropagateFeatureCmd::run_feature, fix entry

The auto-fix loop for propagate-missing diagnostics computes, for a
package with feature F that fails to propagate F to its dependency dep:
  non_optional = feature_enables_dep.is_some_and(|v| v.contains((F, dep_name)))
  opt = if !non_optional && dep.optional then "?" else ""
and appends format!(dep_name, opt, "/", F) to the package's feature F. -/

namespace Lint

/-- Rust Option::is_some_and. -/
def is_some_and {A : Type} (p : A → Bool) : Option A → Bool
  | none => false
  | some a => p a

/-- The string appended by the propagate-feature fixer (lint.rs, the
body of the for-loop over propagate_missing dependencies):
non_optional is feature_enables_dep.is_some_and(contains (feature, dep_name)),
opt is "?" when !non_optional && dep.optional, and the appended entry is
format!(dep_name, opt, "/", feature). -/
def propagate_fix_entry (feature dep_name : String) (dep_optional : Bool)
    (feature_enables_dep : Option (List (String × String))) : String :=
  let non_optional : Bool :=
    is_some_and (fun v => decide ((feature, dep_name) ∈ v)) feature_enables_dep
  let opt : String := if !non_optional && dep_optional then "?" else ""
  dep_name ++ opt ++ "/" ++ feature

/-- The override table lists the pair (feature, dep_name). -/
def OverrideListed (feature dep_name : String)
    (t : Option (List (String × String))) : Prop :=
  ∃ v, t = some v ∧ (feature, dep_name) ∈ v

theorem opt_entry_ne (d f : String) : d ++ "?/" ++ f ≠ d ++ "/" ++ f := by
  intro h
  have hlen := congrArg String.length h
  rw [String.length_append, String.length_append, String.length_append,
    String.length_append] at hlen
  have h2 : ("?/" : String).length = 2 := rfl
  have h1 : ("/" : String).length = 1 := rfl
  rw [h1, h2] at hlen
  omega

theorem is_some_and_mem_iff (feature dep_name : String)
    (t : Option (List (String × String))) :
    is_some_and (fun v => decide ((feature, dep_name) ∈ v)) t = true ↔
      OverrideListed feature dep_name t := by
  cases t with
  | none => simp [is_some_and, OverrideListed]
  | some v => simp [is_some_and, OverrideListed]

/-- Claim C2: the fixer appends dep_name?/feature if and only if the
dependency is optional and (feature, dep_name) is not listed in the
feature-enables-dep override table; in every other case it appends
dep_name/feature. -/
theorem claim_C2_propagate_fix_entry (feature dep_name : String) (dep_optional : Bool)
    (t : Option (List (String × String))) :
    (propagate_fix_entry feature dep_name dep_optional t = dep_name ++ "?/" ++ feature ↔
      (dep_optional = true ∧ ¬OverrideListed feature dep_name t)) ∧
    (propagate_fix_entry feature dep_name dep_optional t = dep_name ++ "/" ++ feature ↔
      ¬(dep_optional = true ∧ ¬OverrideListed feature dep_name t)) := by
  have hq : dep_name ++ "?" ++ "/" ++ feature = dep_name ++ "?/" ++ feature := by
    rw [String.append_assoc dep_name "?" "/"]
    have h0 : ("?" ++ "/" : String) = "?/" := rfl
    rw [h0]
  have he : dep_name ++ "" ++ "/" ++ feature = dep_name ++ "/" ++ feature := by
    rw [String.append_empty]
  have hciff : (!is_some_and (fun v => decide ((feature, dep_name) ∈ v)) t
        && dep_optional) = true ↔
      (dep_optional = true ∧ ¬OverrideListed feature dep_name t) := by
    rw [Bool.and_eq_true, Bool.not_eq_true', ← is_some_and_mem_iff feature dep_name t]
    constructor
    · rintro ⟨hfl, hopt⟩
      exact ⟨hopt, by simp [hfl]⟩
    · rintro ⟨hopt, hfl⟩
      exact ⟨by simpa using hfl, hopt⟩
  cases hc : (!is_some_and (fun v => decide ((feature, dep_name) ∈ v)) t
      && dep_optional) with
  | true =>
    have hval : propagate_fix_entry feature dep_name dep_optional t =
        dep_name ++ "?/" ++ feature := by
      show dep_name ++ (if (!is_some_and (fun v => decide ((feature, dep_name) ∈ v)) t
          && dep_optional) = true then "?" else "") ++ "/" ++ feature =
        dep_name ++ "?/" ++ feature
      rw [hc]
      simpa using hq
    have hcond := hciff.mp hc
    refine ⟨⟨fun _ => hcond, fun _ => hval⟩, ?_⟩
    rw [hval]
    constructor
    · intro h; exact absurd h (opt_entry_ne dep_name feature)
    · intro h; exact absurd hcond h
  | false =>
    have hval : propagate_fix_entry feature dep_name dep_optional t =
        dep_name ++ "/" ++ feature := by
      show dep_name ++ (if (!is_some_and (fun v => decide ((feature, dep_name) ∈ v)) t
          && dep_optional) = true then "?" else "") ++ "/" ++ feature =
        dep_name ++ "/" ++ feature
      rw [hc]
      simp only [Bool.false_eq_true, if_false]
      exact he
    have hcond : ¬(dep_optional = true ∧ ¬OverrideListed feature dep_name t) := by
      intro h
      rw [← hciff] at h
      rw [hc] at h
      exact Bool.false_ne_true h
    refine ⟨?_, ⟨fun _ => hcond, fun _ => hval⟩⟩
    rw [hval]
    constructor
    · intro h; exact absurd h.symm (opt_entry_ne dep_name feature)
    · intro h; exact absurd h hcond

end Lint

/-! ## cargo metadata model and src/cmd/mod.rs: resolve_dep

Only the fields consumed by the linted code paths are modelled.
The metadata carries no resolve graph (meta.resolve == None), so
resolve_dep takes the resolve_dep_from_workspace branch: scan the
workspace packages for one whose name equals the dependency name. -/

namespace Lint

structure Dependency where
  name : String
  rename : Option String
  optional : Bool
  uses_default_features : Bool
  features : List String
deriving DecidableEq, Repr

structure Package where
  id : String
  name : String
  features : List (String × List String)
  dependencies : List Dependency
deriving DecidableEq, Repr

structure Metadata where
  packages : List Package
  workspace_members : List String
deriving DecidableEq, Repr

structure RenamedPackage where
  pkg : Package
  rename : Option String
  optional : Bool
deriving DecidableEq, Repr

/-- RenamedPackage::name: the rename when given, else the package name. -/
def RenamedPackage.name (r : RenamedPackage) : String :=
  r.rename.getD r.pkg.name

/-- cargo_metadata Metadata::workspace_packages: the packages that are
workspace members. -/
def Metadata.workspace_packages (m : Metadata) : List Package :=
  m.packages.filter (fun p => p.id ∈ m.workspace_members)

/-- resolve_dep via resolve_dep_from_workspace (the metadata carries no
resolve graph): return on the first workspace package whose name equals
the dependency name. -/
def resolve_dep (dep : Dependency) (meta : Metadata) : Option RenamedPackage :=
  match meta.workspace_packages.find? (fun w => w.name = dep.name) with
  | none => none
  | some w =>
    match meta.packages.find? (fun p => p.id = w.id) with
    | none => none
    | some p => some ⟨p, dep.rename, dep.optional⟩

/-! ### NeverEnablesCmd::run (claim C3)

The command builds offenders : BTreeMap CrateId (BTreeSet RenamedPackage).
The model records the insertions as a flat list of (CrateId, RenamedPackage)
pairs in loop order; a package is reported exactly when some pair carries
its id. -/

/-- Insertions contributed by one lhs package: the self entry when the
token list of precondition contains stays_disabled literally, plus one
entry per resolvable dependency rhs whose token
rhs.name() ++ "/" ++ stays_disabled occurs in the list. -/
def never_enables_entries (meta : Metadata) (precondition stays_disabled : String)
    (lhs : Package) : List (String × RenamedPackage) :=
  match lhs.features.find? (fun p => p.1 = precondition) with
  | none => []
  | some fp =>
    let enabled := fp.2
    (if stays_disabled ∈ enabled then
        [(lhs.id, RenamedPackage.mk lhs none false)]
      else []) ++
      lhs.dependencies.filterMap (fun dep =>
        match resolve_dep dep meta with
        | none => none
        | some r =>
          if (r.name ++ "/" ++ stays_disabled) ∈ enabled then some (lhs.id, r)
          else none)

/-- All offender insertions of NeverEnablesCmd::run over the packages. -/
def never_enables_offenders (meta : Metadata) (precondition stays_disabled : String) :
    List (String × RenamedPackage) :=
  meta.packages.flatMap (never_enables_entries meta precondition stays_disabled)

end Lint

namespace Lint

/-- Concrete metadata for claim C3: package A declares feature pre with
the single token B?/post, and B is a resolvable workspace dependency. -/
def c3meta : Metadata :=
  ⟨[⟨"A", "A", [("pre", ["B?/post"])], [⟨"B", none, false, false, []⟩]⟩,
    ⟨"B", "B", [], []⟩], ["A", "B"]⟩

/-- Counterexample to C3 as stated: the pre token list of package A
contains the dep?/post shape for the resolvable direct dependency B,
yet the never-enables scan records no offender, because the code only
looks for the literal post token and for dep/post. -/
theorem claim_C3_counterexample :
    ((resolve_dep (Dependency.mk "B" none false false []) c3meta).map
        RenamedPackage.name) = some "B" ∧
    ("B" ++ "?/" ++ "post") ∈ ["B?/post"] ∧
    never_enables_offenders c3meta "pre" "post" = [] := by
  refine ⟨by decide, by decide, by decide⟩

/-- Amended C3: the never-enables lint reports a package whose features
map contains pre whenever the activation-token list of pre contains the
token post, or the token dep/post for a resolvable direct dependency
dep; the shape dep?/post is not detected. -/
theorem claim_C3_reports_amended (meta : Metadata) (pre post : String)
    (pkg : Package) (hpkg : pkg ∈ meta.packages)
    (fp : String × List String)
    (hfind : pkg.features.find? (fun p => p.1 = pre) = some fp)
    (hdetect : post ∈ fp.2 ∨
      ∃ dep ∈ pkg.dependencies, ∃ r, resolve_dep dep meta = some r ∧
        (r.name ++ "/" ++ post) ∈ fp.2) :
    ∃ e ∈ never_enables_offenders meta pre post, e.1 = pkg.id := by
  have hred : never_enables_entries meta pre post pkg =
      (if post ∈ fp.2 then [(pkg.id, RenamedPackage.mk pkg none false)] else []) ++
        pkg.dependencies.filterMap (fun dep =>
          match resolve_dep dep meta with
          | none => none
          | some r =>
            if (r.name ++ "/" ++ post) ∈ fp.2 then some (pkg.id, r) else none) := by
    unfold never_enables_entries
    rw [hfind]
  have hentry : ∃ e ∈ never_enables_entries meta pre post pkg, e.1 = pkg.id := by
    rw [hred]
    rcases hdetect with h | ⟨dep, hdep, r, hr, hmem⟩
    · refine ⟨(pkg.id, RenamedPackage.mk pkg none false), ?_, rfl⟩
      rw [if_pos h]
      exact List.mem_append_left _ (List.mem_singleton.mpr rfl)
    · refine ⟨(pkg.id, r), ?_, rfl⟩
      refine List.mem_append_right _ ?_
      refine List.mem_filterMap.mpr ⟨dep, hdep, ?_⟩
      rw [hr]
      show (if r.name ++ "/" ++ post ∈ fp.2 then some (pkg.id, r) else none) = some (pkg.id, r)
      rw [if_pos hmem]
  obtain ⟨e, he, heid⟩ := hentry
  exact ⟨e, List.mem_flatMap.mpr ⟨pkg, hpkg, he⟩, heid⟩

/-- Concrete metadata for the C3 witness: package C enables post
directly from feature pre. -/
def c3meta2 : Metadata := ⟨[⟨"C", "C", [("pre", ["post"])], []⟩], ["C"]⟩

/-- Witness for the amended C3. -/
theorem claim_C3_witness :
    ∃ e ∈ never_enables_offenders c3meta2 "pre" "post",
      e.1 = (Package.mk "C" "C" [("pre", ["post"])] []).id :=
  claim_C3_reports_amended c3meta2 "pre" "post"
    (Package.mk "C" "C" [("pre", ["post"])] []) (by decide)
    ("pre", ["post"]) (by decide) (Or.inl (by decide))

end Lint

/-! ## src/cmd/lint.rs: build_feature_dag (claim C8)

Nodes are CrateAndFeature pairs (crate id or plain dependency name,
feature name).  Panics inside the function (unresolvable feature-table
dependency names) are a distinguished outcome of the build. -/

namespace Lint

/-- CrateAndFeature(String, String). -/
abbrev CrateAndFeature : Type := String × String

/-- Outcome of running code that may panic. -/
inductive RRes (α : Type) where
  | panicked : RRes α
  | ok : α → RRes α
deriving DecidableEq, Repr

/-- foldl threading a possible panic. -/
def foldlR {α β : Type} (f : β → α → RRes β) : β → List α → RRes β
  | b, [] => .ok b
  | b, a :: as' =>
    match f b a with
    | .panicked => .panicked
    | .ok b' => foldlR f b' as'

/-- First loop of build_feature_dag, body for one dependency record:
default-features edge, the #entrypoint edge when the dependency
resolves (the let-else continue skips the per-feature loop when it does
not), and one default edge per feature enabled on the dependency. -/
def build_dep_edges (pkg : Package) (meta : Metadata)
    (dag : Dag CrateAndFeature) (dep : Dependency) : Dag CrateAndFeature :=
  if dep.uses_default_features then
    let dag := dag.add_edge (pkg.id, "default") (dep.name, "default")
    match resolve_dep dep meta with
    | none => dag
    | some r =>
      let dag := dag.add_edge (pkg.id, "#entrypoint") (r.pkg.id, "default")
      dep.features.foldl
        (fun dag feature => dag.add_edge (pkg.id, "default") (dep.name, feature)) dag
  else
    dep.features.foldl
      (fun dag feature => dag.add_edge (pkg.id, "default") (dep.name, feature)) dag

/-- Second loop of build_feature_dag, body for one activation token dep
of the feature table entry (feature, deps).  The three token shapes:
dep:name (edge to the default feature of the renamed dependency),
name/feat or name?/feat (edge to feat of the dependency, falling back
to the plain dependency name when metadata cannot resolve it - the
deliberate dead-end), and a bare feature name (edge within the package;
the debug_assert on the features table is compiled out in release). -/
def feature_token_edge (pkg : Package) (meta : Metadata) (feature : String)
    (dag : Dag CrateAndFeature) (dep : String) : RRes (Dag CrateAndFeature) :=
  if Str.containsChar dep ':' then
    -- dep_feature = "default"; dep_id = resolved id, falling back to the name
    match (Str.splitChar dep ':').get? 1 with
    | none => .panicked
    | some dname =>
      match pkg.dependencies.find? (fun d => d.rename.getD d.name = dname) with
      | none => .panicked
      | some d =>
        match resolve_dep d meta with
        | none => .ok (dag.add_edge (pkg.id, feature) (d.name, "default"))
        | some r => .ok (dag.add_edge (pkg.id, feature) (r.pkg.id, "default"))
  else if Str.containsChar dep '/' then
    match (Str.splitChar dep '/').get? 0, (Str.splitChar dep '/').get? 1 with
    | some d0, some dep_feature =>
      match pkg.dependencies.find?
          (fun d => d.rename.getD d.name = Str.removeChar d0 '?') with
      | none => .panicked
      | some d =>
        match resolve_dep d meta with
        | none => .ok (dag.add_edge (pkg.id, feature) (d.name, dep_feature))
        | some r => .ok (dag.add_edge (pkg.id, feature) (r.pkg.id, dep_feature))
    | _, _ => .panicked
  else
    .ok (dag.add_edge (pkg.id, feature) (pkg.id, dep))

/-- Both loops of build_feature_dag for one package. -/
def build_pkg (meta : Metadata) (dag : Dag CrateAndFeature) (pkg : Package) :
    RRes (Dag CrateAndFeature) :=
  let dag1 := pkg.dependencies.foldl (build_dep_edges pkg meta) dag
  foldlR (fun dag fp => foldlR (feature_token_edge pkg meta fp.1) dag fp.2)
    dag1 pkg.features

/-- build_feature_dag(meta, pkgs): fold both loops over all packages,
starting from the empty Dag. -/
def build_feature_dag (meta : Metadata) (pkgs : List Package) :
    RRes (Dag CrateAndFeature) :=
  foldlR (build_pkg meta) (Dag.mk []) pkgs

end Lint

namespace Dag

variable {T : Type} [DecidableEq T]

theorem mem_setInsert_of_mem {vs : List T} {b : T} (d : T) (h : b ∈ vs) :
    b ∈ setInsert vs d := by
  unfold setInsert
  split
  · exact h
  · exact List.mem_append_left _ h

/-- The neighbor sets after add_edge: the from key gains the to value,
every other key is untouched. -/
theorem find?_entryInsert (c d a : T) (l : List (T × List T)) :
    (((entryInsert c d l).find? (fun p => p.1 = a)).map (fun p => p.2)) =
      if a = c then
        some (setInsert ((((l.find? (fun p => p.1 = a)).map (fun p => p.2))).getD []) d)
      else ((l.find? (fun p => p.1 = a)).map (fun p => p.2)) := by
  induction l with
  | nil =>
    by_cases h : a = c
    · subst h
      simp [entryInsert, List.find?, setInsert]
    · have h' : ¬c = a := fun hh => h hh.symm
      simp [entryInsert, List.find?, h, h']
  | cons p rest ih =>
    obtain ⟨k, vs⟩ := p
    by_cases hk : k = c
    · subst hk
      by_cases ha : a = k
      · subst ha
        simp [entryInsert, List.find?]
      · have hka : ¬(k = a) := fun hh => ha hh.symm
        simp [entryInsert, List.find?, hka, ha]
    · by_cases ha : a = k
      · subst ha
        simp [entryInsert, List.find?, hk]
      · have hka : ¬(k = a) := fun hh => ha hh.symm
        simp only [entryInsert, if_neg hk, List.find?, hka, decide_False,
          decide_eq_true_eq]
        exact ih

theorem edgesGet_add_edge (g : Dag T) (c d a : T) :
    edgesGet (add_edge g c d) a =
      if a = c then some (setInsert ((edgesGet g a).getD []) d)
      else edgesGet g a :=
  find?_entryInsert c d a g.edges

/-- Adding an edge preserves every existing direct connection. -/
theorem connected_add_edge_of_connected {g : Dag T} {a b : T} (c d : T)
    (h : connected g a b = true) : connected (add_edge g c d) a b = true := by
  unfold connected at h ⊢
  cases hg : edgesGet g a with
  | none => rw [hg] at h; simp at h
  | some vs =>
    rw [hg] at h
    have hmem : b ∈ vs := by simpa using h
    rw [edgesGet_add_edge g c d a]
    by_cases hac : a = c
    · rw [if_pos hac, hg]
      simpa using mem_setInsert_of_mem d hmem
    · rw [if_neg hac, hg]
      simpa using hmem

/-- The edge just added is a direct connection. -/
theorem connected_add_edge_self (g : Dag T) (a b : T) :
    connected (add_edge g a b) a b = true := by
  unfold connected
  rw [edgesGet_add_edge g a b a, if_pos rfl]
  simpa using mem_setInsert_self ((edgesGet g a).getD []) b

/-- add_edge creates no key other than the from endpoint. -/
theorem mem_entryInsert_keys (a b : T) (l : List (T × List T)) :
    ∀ q ∈ entryInsert a b l, q.1 = a ∨ q.1 ∈ l.map Prod.fst := by
  induction l with
  | nil =>
    intro q hq
    rcases List.mem_singleton.mp hq with rfl
    exact Or.inl rfl
  | cons p rest ih =>
    obtain ⟨k, vs⟩ := p
    intro q hq
    by_cases hk : k = a
    · rw [entryInsert, if_pos hk] at hq
      rcases List.mem_cons.mp hq with rfl | hq'
      · exact Or.inl hk
      · exact Or.inr (List.mem_map.mpr ⟨q, List.mem_cons_of_mem _ hq', rfl⟩)
    · rw [entryInsert, if_neg hk] at hq
      rcases List.mem_cons.mp hq with rfl | hq'
      · exact Or.inr (List.mem_map.mpr ⟨(k, vs), List.mem_cons_self _ _, rfl⟩)
      · rcases ih q hq' with h | h
        · exact Or.inl h
        · rcases List.mem_map.mp h with ⟨r, hr, hrq⟩
          exact Or.inr (List.mem_map.mpr ⟨r, List.mem_cons_of_mem _ hr, hrq⟩)

end Dag

namespace Lint

theorem foldl_preserves {α β : Type} {Inv : β → Prop} {f : β → α → β}
    (hstep : ∀ x a, Inv x → Inv (f x a)) :
    ∀ (l : List α) (b : β), Inv b → Inv (l.foldl f b) := by
  intro l
  induction l with
  | nil => intro b hb; exact hb
  | cons hd tl ih => intro b hb; exact ih (f b hd) (hstep b hd hb)

theorem foldlR_preserves {α β : Type} {Inv : β → Prop} {f : β → α → RRes β} :
    ∀ (l : List α) (b b' : β),
      (∀ x a y, a ∈ l → f x a = .ok y → Inv x → Inv y) →
      foldlR f b l = .ok b' → Inv b → Inv b' := by
  intro l
  induction l with
  | nil =>
    intro b b' _ hf hb
    simp only [foldlR, RRes.ok.injEq] at hf
    exact hf ▸ hb
  | cons hd tl ih =>
    intro b b' hstep hf hb
    unfold foldlR at hf
    cases hcase : f b hd with
    | panicked => rw [hcase] at hf; cases hf
    | ok x =>
      rw [hcase] at hf
      exact ih x b' (fun x' a y ha => hstep x' a y (List.mem_cons_of_mem _ ha)) hf
        (hstep b hd x (List.mem_cons_self _ _) hcase hb)

/-- If every step preserves P, and the step at some list element a
establishes P from any input state, then a completed fold satisfies P. -/
theorem foldlR_establish {α β : Type} {P : β → Prop} {f : β → α → RRes β} :
    ∀ (l : List α) (b b' : β),
      (∀ x a y, a ∈ l → f x a = .ok y → P x → P y) →
      foldlR f b l = .ok b' →
      ∀ a ∈ l, (∀ x y, f x a = .ok y → P y) →
      P b' := by
  intro l
  induction l with
  | nil => intro b b' _ _ a ha; cases ha
  | cons hd tl ih =>
    intro b b' hpres hf a ha hest
    unfold foldlR at hf
    cases hcase : f b hd with
    | panicked => rw [hcase] at hf; cases hf
    | ok x =>
      rw [hcase] at hf
      rcases List.mem_cons.mp ha with rfl | ha'
      · exact foldlR_preserves tl x b'
          (fun x' a' y ha' => hpres x' a' y (List.mem_cons_of_mem _ ha')) hf
          (hest b x hcase)
      · exact ih x b' (fun x' a' y ha'' => hpres x' a' y (List.mem_cons_of_mem _ ha''))
          hf a ha' hest

/-- A property preserved by adding any edge. -/
def EdgeMono (P : Dag CrateAndFeature → Prop) : Prop :=
  ∀ x u v, P x → P (Dag.add_edge x u v)

theorem build_dep_edges_preserves {P : Dag CrateAndFeature → Prop} (hP : EdgeMono P)
    (pkg : Package) (meta : Metadata) (x : Dag CrateAndFeature) (dep : Dependency)
    (hx : P x) : P (build_dep_edges pkg meta x dep) := by
  unfold build_dep_edges
  have hfold : ∀ y, P y →
      P (dep.features.foldl
        (fun dag feature => dag.add_edge (pkg.id, "default") (dep.name, feature)) y) :=
    fun y hy => foldl_preserves (fun z a hz => hP z _ _ hz) dep.features y hy
  split
  · cases hres : resolve_dep dep meta with
    | none => exact hP _ _ _ hx
    | some r => exact hfold _ (hP _ _ _ (hP _ _ _ hx))
  · exact hfold _ hx

/-- Every successful token step adds exactly one edge whose from node is
(pkg.id, feature). -/
theorem feature_token_edge_ok_shape {pkg : Package} {meta : Metadata}
    {feature : String} {x y : Dag CrateAndFeature} {tok : String}
    (h : feature_token_edge pkg meta feature x tok = .ok y) :
    ∃ v, y = Dag.add_edge x (pkg.id, feature) v := by
  unfold feature_token_edge at h
  split at h
  · split at h
    · cases h
    · split at h
      · cases h
      · split at h
        · simp only [RRes.ok.injEq] at h
          exact ⟨_, h.symm⟩
        · simp only [RRes.ok.injEq] at h
          exact ⟨_, h.symm⟩
  · split at h
    · split at h
      · split at h
        · cases h
        · split at h
          · simp only [RRes.ok.injEq] at h
            exact ⟨_, h.symm⟩
          · simp only [RRes.ok.injEq] at h
            exact ⟨_, h.symm⟩
      · cases h
    · simp only [RRes.ok.injEq] at h
      exact ⟨_, h.symm⟩

theorem feature_token_edge_preserves {P : Dag CrateAndFeature → Prop} (hP : EdgeMono P)
    {pkg : Package} {meta : Metadata} {feature : String}
    {x y : Dag CrateAndFeature} {tok : String}
    (h : feature_token_edge pkg meta feature x tok = .ok y) (hx : P x) : P y := by
  obtain ⟨v, rfl⟩ := feature_token_edge_ok_shape h
  exact hP _ _ _ hx

theorem build_pkg_preserves {P : Dag CrateAndFeature → Prop} (hP : EdgeMono P)
    {meta : Metadata} {x y : Dag CrateAndFeature} {pkg : Package}
    (h : build_pkg meta x pkg = .ok y) (hx : P x) : P y := by
  unfold build_pkg at h
  have h1 : P (pkg.dependencies.foldl (build_dep_edges pkg meta) x) :=
    foldl_preserves (fun z d hz => build_dep_edges_preserves hP pkg meta z d hz)
      pkg.dependencies x hx
  exact foldlR_preserves pkg.features _ y
    (fun x' fp y' _ hstep hx' =>
      foldlR_preserves fp.2 x' y'
        (fun x'' tok y'' _ htok hx'' => feature_token_edge_preserves hP htok hx'')
        hstep hx')
    h h1

/-- The token step for an unresolvable name/feat (or name?/feat) token
whose dependency record exists: the added edge ends at the plain
dependency name. -/
theorem feature_token_edge_unresolved {pkg : Package} {meta : Metadata}
    {feature : String} (x : Dag CrateAndFeature) {tok d0 dep_feature : String}
    {rest : List String} {d : Dependency}
    (hcolon : Str.containsChar tok ':' = false)
    (hslash : Str.containsChar tok '/' = true)
    (hsplit : Str.splitChar tok '/' = d0 :: dep_feature :: rest)
    (hfind : pkg.dependencies.find?
      (fun dd => dd.rename.getD dd.name = Str.removeChar d0 '?') = some d)
    (hres : resolve_dep d meta = none) :
    feature_token_edge pkg meta feature x tok =
      .ok (Dag.add_edge x (pkg.id, feature) (d.name, dep_feature)) := by
  unfold feature_token_edge
  rw [hcolon, hslash, hsplit]
  simp only [Bool.false_eq_true, if_false, if_true, List.get?]
  rw [hfind]
  show (match resolve_dep d meta with
    | none => RRes.ok (x.add_edge (pkg.id, feature) (d.name, dep_feature))
    | some r => RRes.ok (x.add_edge (pkg.id, feature) (r.pkg.id, dep_feature))) =
    RRes.ok (x.add_edge (pkg.id, feature) (d.name, dep_feature))
  rw [hres]

end Lint

namespace Lint

/-- Every key of the built Dag carries a package id as crate component. -/
def KeyInv (ids : List String) (dag : Dag CrateAndFeature) : Prop :=
  ∀ q ∈ dag.edges, q.1.1 ∈ ids

theorem KeyInv_add_edge {ids : List String} {dag : Dag CrateAndFeature}
    (h : KeyInv ids dag) {u : CrateAndFeature} (hu : u.1 ∈ ids)
    (v : CrateAndFeature) : KeyInv ids (Dag.add_edge dag u v) := by
  intro q hq
  rcases Dag.mem_entryInsert_keys u v dag.edges q hq with h1 | h2
  · rw [h1]; exact hu
  · rcases List.mem_map.mp h2 with ⟨p, hp, hpq⟩
    rw [← hpq]
    exact h p hp

/-- KeyInv after adding an edge whose from node carries a listed id. -/
theorem KeyInv_add_edge_pkg {ids : List String} {dag : Dag CrateAndFeature}
    (h : KeyInv ids dag) {pid : String} (hp : pid ∈ ids) (fe : String)
    (v : CrateAndFeature) : KeyInv ids (Dag.add_edge dag (pid, fe) v) :=
  @KeyInv_add_edge ids dag h (pid, fe) hp v

theorem build_dep_edges_keyinv {ids : List String} (pkg : Package) (meta : Metadata)
    (hpkg : pkg.id ∈ ids) (x : Dag CrateAndFeature) (dep : Dependency)
    (hx : KeyInv ids x) : KeyInv ids (build_dep_edges pkg meta x dep) := by
  unfold build_dep_edges
  have hfold : ∀ y, KeyInv ids y →
      KeyInv ids (dep.features.foldl
        (fun dag feature => dag.add_edge (pkg.id, "default") (dep.name, feature)) y) :=
    fun y hy =>
      @foldl_preserves String (Dag CrateAndFeature) (KeyInv ids)
        (fun dag feature => dag.add_edge (pkg.id, "default") (dep.name, feature))
        (fun z a hz => KeyInv_add_edge_pkg hz hpkg "default" (dep.name, a))
        dep.features y hy
  split
  · cases resolve_dep dep meta with
    | none => exact KeyInv_add_edge_pkg hx hpkg _ _
    | some r => exact hfold _ (KeyInv_add_edge_pkg (KeyInv_add_edge_pkg hx hpkg _ _) hpkg _ _)
  · exact hfold _ hx

theorem build_pkg_keyinv {ids : List String} {meta : Metadata}
    {x y : Dag CrateAndFeature} {pkg : Package} (hpkg : pkg.id ∈ ids)
    (h : build_pkg meta x pkg = .ok y) (hx : KeyInv ids x) : KeyInv ids y := by
  unfold build_pkg at h
  have h1 : KeyInv ids (pkg.dependencies.foldl (build_dep_edges pkg meta) x) :=
    foldl_preserves (fun z d hz => build_dep_edges_keyinv pkg meta hpkg z d hz)
      pkg.dependencies x hx
  refine foldlR_preserves pkg.features _ y ?_ h h1
  intro x' fp y' _ hstep hx'
  refine foldlR_preserves fp.2 x' y' ?_ hstep hx'
  intro x'' tok y'' _ htok hx''
  obtain ⟨v, rfl⟩ := feature_token_edge_ok_shape htok
  exact KeyInv_add_edge_pkg hx'' hpkg _ _

theorem build_feature_dag_keys {meta : Metadata} {pkgs : List Package}
    {dag : Dag CrateAndFeature} (h : build_feature_dag meta pkgs = .ok dag) :
    KeyInv (pkgs.map Package.id) dag := by
  unfold build_feature_dag at h
  refine foldlR_preserves pkgs _ dag ?_ h ?_
  · intro x pkg y hmem hstep hx
    exact build_pkg_keyinv (List.mem_map_of_mem _ hmem) hstep hx
  · intro q hq
    cases hq

/-- Claim C8: in the graph built by build_feature_dag, a name/feat (or
name?/feat) activation token whose dependency record exists but does not
resolve in metadata produces an edge ending at the node
(dependency name, feat); provided no package id string equals the plain
dependency name, that node is not a key of the edge relation, so it has
no outgoing edges (a dead-end leaf). -/
theorem claim_C8_unresolved_dep_leaf
    (meta : Metadata) (pkgs : List Package) (dag : Dag CrateAndFeature)
    (hbuild : build_feature_dag meta pkgs = .ok dag)
    (pkg : Package) (hpkg : pkg ∈ pkgs)
    (feature : String) (fdeps : List String)
    (hfp : (feature, fdeps) ∈ pkg.features)
    (tok : String) (htok : tok ∈ fdeps)
    (hcolon : Str.containsChar tok ':' = false)
    (hslash : Str.containsChar tok '/' = true)
    (d0 dep_feature : String) (rest : List String)
    (hsplit : Str.splitChar tok '/' = d0 :: dep_feature :: rest)
    (d : Dependency)
    (hfind : pkg.dependencies.find?
      (fun dd => dd.rename.getD dd.name = Str.removeChar d0 '?') = some d)
    (hres : resolve_dep d meta = none)
    (hleaf : d.name ∉ pkgs.map Package.id) :
    Dag.connected dag (pkg.id, feature) (d.name, dep_feature) = true ∧
    Dag.lhs_contains dag (d.name, dep_feature) = false := by
  have hmono : EdgeMono
      (fun z => Dag.connected z (pkg.id, feature) (d.name, dep_feature) = true) :=
    fun x u v hx => Dag.connected_add_edge_of_connected u v hx
  constructor
  · unfold build_feature_dag at hbuild
    refine foldlR_establish pkgs _ dag
      (fun x a y _ hstep hx => build_pkg_preserves hmono hstep hx)
      hbuild pkg hpkg ?_
    intro x y hpk
    unfold build_pkg at hpk
    refine foldlR_establish pkg.features _ y
      (fun x' fp y' _ hstep hx' =>
        foldlR_preserves fp.2 x' y'
          (fun x'' tok' y'' _ htok' hx'' =>
            feature_token_edge_preserves hmono htok' hx'')
          hstep hx')
      hpk (feature, fdeps) hfp ?_
    intro x' y' hfold
    refine foldlR_establish fdeps _ y'
      (fun x'' tok' y'' _ htok' hx'' =>
        feature_token_edge_preserves hmono htok' hx'')
      hfold tok htok ?_
    intro x'' y'' hstep
    rw [feature_token_edge_unresolved x'' hcolon hslash hsplit hfind hres] at hstep
    simp only [RRes.ok.injEq] at hstep
    rw [← hstep]
    exact Dag.connected_add_edge_self x'' (pkg.id, feature) (d.name, dep_feature)
  · have hkeys := build_feature_dag_keys hbuild
    cases hlc : Dag.lhs_contains dag (d.name, dep_feature) with
    | false => rfl
    | true =>
      exfalso
      unfold Dag.lhs_contains at hlc
      obtain ⟨p, hp, hp1⟩ := List.any_eq_true.mp hlc
      have hmem := hkeys p hp
      have hpe : p.1 = (d.name, dep_feature) := by simpa using hp1
      rw [hpe] at hmem
      exact hleaf hmem

/-- Concrete input for the C8 witness: the single workspace package P
has feature f with the token miss/std, and a dependency record miss
that does not resolve (no workspace package is named miss). -/
def c8pkg : Package := ⟨"P", "P", [("f", ["miss/std"])], [⟨"miss", none, false, false, []⟩]⟩

def c8meta : Metadata := ⟨[c8pkg], ["P"]⟩

/-- Witness for C8: the built graph holds the edge (P, f) -> (miss, std)
and (miss, std) has no outgoing edges. -/
theorem claim_C8_witness :
    Dag.connected (Dag.mk [((("P" : String), ("f" : String)), [("miss", "std")])])
      ("P", "f") ("miss", "std") = true ∧
    Dag.lhs_contains (Dag.mk [((("P" : String), ("f" : String)), [("miss", "std")])])
      ("miss", "std") = false := by
  have h := claim_C8_unresolved_dep_leaf c8meta c8meta.packages
    (Dag.mk [((("P" : String), ("f" : String)), [("miss", "std")])])
    (by decide) c8pkg (by decide) "f" ["miss/std"] (by decide) "miss/std" (by decide)
    (by decide) (by decide) "miss" "std" [] (by decide)
    ⟨"miss", none, false, false, []⟩ (by decide) (by decide) (by decide)
  exact h

end Lint

/-! ## src/cmd/lint/nostd.rs: DefaultFeaturesDisabledCmd::run (claim C4)

The no-std support test reads lib.rs from disk; that IO is abstracted
into a precomputed Boolean on the package model.  The autofixer and the
toml edits always succeed in the model (at the inputs considered here
the loop performs no fixer operation at all). -/

namespace NoStd

structure NDep where
  /-- dep.kind == DependencyKind::Normal. -/
  kind_normal : Bool
  /-- resolve_dep outcome: the resolved package name and whether that
  package supports no-std builds. -/
  resolves : Option (String × Bool)
  uses_default_features : Bool
deriving DecidableEq, Repr

structure NPkg where
  name : String
  manifest_path : String
  /-- Self::supports_nostd(lhs): lib.rs carries a no-std attribute. -/
  supports_nostd : Bool
  deps : List NDep
deriving DecidableEq, Repr

/-- The dependencies of one package that produce a diagnostic: normal
kind, resolvable, both sides support no-std, default features not
disabled. -/
def pkg_issue_deps (lhs : NPkg) : List NDep :=
  if lhs.supports_nostd then
    lhs.deps.filter (fun d =>
      d.kind_normal &&
        (match d.resolves with
          | some (_, rhs_nostd) => rhs_nostd
          | none => false) &&
        d.uses_default_features)
  else []

/-- Number of issues counted by the run loop. -/
def nostd_issues (pkgs : List NPkg) : Nat :=
  (pkgs.map (fun p => (pkg_issue_deps p).length)).sum

/-- The tail of DefaultFeaturesDisabledCmd::run: the printed issue count
and the returned Result.  The else branch returns the error
unconditionally - it never consults the issue count. -/
def nostd_run (pkgs : List NPkg) (fix : Bool) : Nat × Except String Unit :=
  let issues := nostd_issues pkgs
  (issues,
    if fix then Except.ok ()
    else Except.error "Several issues were not fixed.")

/-- Claim C4 is a code bug: on a clean workspace (zero diagnostics) the
lint still returns the error "Several issues were not fixed." when --fix
is absent, so it exits non-zero; indeed the result without --fix never
depends on the diagnostic count. -/
theorem claim_C4_zero_issues_still_error :
    nostd_run [⟨"clean", "clean/Cargo.toml", true, []⟩] false =
      (0, Except.error "Several issues were not fixed.") ∧
    ∀ pkgs : List NPkg,
      (nostd_run pkgs false).2 = Except.error "Several issues were not fixed." := by
  exact ⟨rfl, fun pkgs => rfl⟩

end NoStd

/-! ## src/autofix.rs: feature array editing (claims C5 and C10)

A toml_edit Value is modelled as its payload (a string, or some
non-string value) together with its decor prefix and suffix strings.
The surrounding DocumentMut plumbing (locating the features table) is
not modelled; the functions below operate on the feature Array as the
source functions do.  A panic (as_str().unwrap() on a non-string,
panic!("Empty value in feature"), unreachable!) is the distinguished
outcome PRes.panics; a returned Err(String) is PRes.fails. -/

inductive PRes (α : Type) where
  | panics : PRes α
  | fails : String → PRes α
  | ok : α → PRes α
deriving DecidableEq, Repr

namespace Autofix

inductive TomlVal where
  | str : String → TomlVal
  | other : TomlVal
deriving DecidableEq, Repr

def TomlVal.isStr : TomlVal → Bool
  | .str _ => true
  | .other => false

structure TomlItem where
  val : TomlVal
  pre : String
  suf : String
deriving DecidableEq, Repr

/-- One iteration of the dedub loop at index i (counting down), on the
current value vector.  The loop body reads values[i] (unwrap: panic on a
non-string), and when i > 0 compares against values[i-1]:  unsorted
order is an error, distinct entries equal up to question marks are an
error, and equal entries drop values[i] unless it carries a comment.
Removal at index i never shifts the indices below i, so the model
recurses on i - 1 with the shortened vector. -/
def dedub_go (fname : String) : Nat → List TomlItem → PRes (List TomlItem)
  | 0, vs =>
    match vs.get? 0 with
    | none => .ok vs
    | some cur =>
      match cur.val with
      | .str _ => .ok vs
      | .other => .panics
  | i + 1, vs =>
    match vs.get? (i + 1), vs.get? i with
    | some cur, some last =>
      match cur.val with
      | .other => .panics
      | .str cur_str =>
        match last.val with
        | .other => .panics
        | .str last_str =>
          if Str.strLt cur_str last_str then
            .fails ("Cannot de-duplicate: feature is not sorted: " ++
              cur_str ++ " < " ++ last_str)
          else if cur_str ≠ last_str then
            if Str.removeChar cur_str '?' = Str.removeChar last_str '?' then
              .fails ("feature '" ++ fname ++ "': conflicting ? for '" ++ cur_str ++ "'")
            else
              dedub_go fname i vs
          else
            if !Str.trimEmpty cur.pre || !Str.trimEmpty cur.suf then
              .fails ("feature '" ++ fname ++ "': has a comment '" ++ cur_str ++ "'")
            else
              dedub_go fname i (vs.eraseIdx (i + 1))
    | _, _ => .ok vs

/-- AutoFixer::dedub_feature: scan adjacent pairs from the end
(for i in (0..values.len()).rev()); the final clear/push_formatted
rebuild keeps the surviving values. -/
def dedub_feature (cname fname : String) (feature : List TomlItem) :
    PRes (List TomlItem) :=
  let _ := cname
  if feature.isEmpty then .ok feature
  else dedub_go fname (feature.length - 1) feature

/-- The sort key: as_str().unwrap() (the panic case is handled in
sort_feature itself). -/
def tomlKey (v : TomlItem) : String :=
  match v.val with
  | .str s => s
  | .other => ""

def insertByKey (x : TomlItem) : List TomlItem → List TomlItem
  | [] => [x]
  | y :: ys =>
    if Str.strLt (tomlKey x) (tomlKey y) then x :: y :: ys
    else y :: insertByKey x ys

def sortByKey : List TomlItem → List TomlItem
  | [] => []
  | x :: xs => insertByKey x (sortByKey xs)

/-- AutoFixer::sort_feature:
values.sort_by(|a, b| a.as_str().unwrap().cmp(b.as_str().unwrap())).
With at least two elements every element takes part in at least one
comparison, so any non-string value makes the comparator panic; on a
shorter array the comparator never runs. -/
def sort_feature (feature : List TomlItem) : PRes (List TomlItem) :=
  if feature.length ≥ 2 && feature.any (fun v => !v.val.isStr) then .panics
  else .ok (sortByKey feature)

/-- str::ends_with("\n\t") on the character list. -/
def endsWithNlTab (s : String) : Bool :=
  match s.data.reverse with
  | c1 :: c2 :: _ => c1 = Char.ofNat 9 && c2 = Char.ofNat 10
  | _ => false

/-- str::trim_end(). -/
def trimRight (s : String) : String :=
  String.mk ((s.data.reverse.dropWhile (fun c => c.isWhitespace)).reverse)

/-- str::trim_end_matches(c). -/
def trimRightMatches (s : String) (c : Char) : String :=
  String.mk ((s.data.reverse.dropWhile (fun x => x = c)).reverse)

/-- str::trim_start_matches(c). -/
def trimLeftMatches (s : String) (c : Char) : String :=
  String.mk (s.data.dropWhile (fun x => x = c))

/-- The first loop of add_to_feature over the existing values: panic on
an empty string value, then normalize each value's decor (prefix ends in
newline-tab, suffix loses trailing newlines, prefix loses leading
spaces). -/
def munge_existing : List TomlItem → PRes (List TomlItem)
  | [] => .ok []
  | x :: xs =>
    if (match x.val with
        | .str s => s.data.isEmpty
        | .other => false) then
      .panics
    else
      let pre0 := x.pre
      let pre1 := if endsWithNlTab pre0 then pre0 else trimRight pre0 ++ "\n\t"
      let suf1 := trimRightMatches x.suf (Char.ofNat 10)
      match munge_existing xs with
      | .panics => .panics
      | .fails e => .fails e
      | .ok rest => .ok (⟨x.val, trimLeftMatches pre1 (Char.ofNat 32), suf1⟩ :: rest)

/-- The final loop of add_to_feature: every element but the last moves
its suffix onto the next element's prefix and keeps an empty suffix. -/
def merge_decor : List TomlItem → List TomlItem
  | [] => []
  | [x] => [x]
  | x :: y :: rest =>
    ⟨x.val, x.pre, ""⟩ :: merge_decor (⟨y.val, x.suf ++ y.pre, y.suf⟩ :: rest)
termination_by l => l.length
decreasing_by simp

/-- AutoFixer::add_to_feature on the feature array: normalize the
existing values (panicking on an empty string entry), refuse an empty
new value (unreachable!), push the decorated new value and merge the
decor seams. -/
def add_to_feature (feature : List TomlItem) (v : String) : PRes (List TomlItem) :=
  match munge_existing feature with
  | .panics => .panics
  | .fails e => .fails e
  | .ok vals =>
    if v.data.isEmpty then .panics
    else .ok (merge_decor (vals ++ [⟨.str v, "\n\t", "\n"⟩]))

end Autofix


namespace Autofix

theorem ltChars_irrefl : ∀ l : List Char, Str.ltChars l l = false
  | [] => rfl
  | a :: as' => by
    unfold Str.ltChars
    rw [if_neg (lt_irrefl a), if_neg (lt_irrefl a)]
    exact ltChars_irrefl as'

theorem strLt_irrefl (s : String) : Str.strLt s s = false :=
  ltChars_irrefl s.data

theorem claim_C5_counterexample :
    dedub_feature "crate" "feat"
      [⟨.str "a", " # kept comment", ""⟩, ⟨.str "a", "", ""⟩] =
      .ok [⟨.str "a", " # kept comment", ""⟩] ∧
    Str.trimEmpty " # kept comment" = false := by
  refine ⟨by decide, by decide⟩

theorem claim_C5_dedub_amended (cname fname s p1 s1 p2 s2 : String) :
    ((!Str.trimEmpty p2 || !Str.trimEmpty s2) = true →
      dedub_feature cname fname
        [⟨.str s, p1, s1⟩, ⟨.str s, p2, s2⟩] =
        .fails ("feature '" ++ fname ++ "': has a comment '" ++ s ++ "'")) ∧
    ((!Str.trimEmpty p2 || !Str.trimEmpty s2) = false →
      dedub_feature cname fname
        [⟨.str s, p1, s1⟩, ⟨.str s, p2, s2⟩] = .ok [⟨.str s, p1, s1⟩]) := by
  have hlt : Str.strLt s s = false := strLt_irrefl s
  constructor <;> intro h
  · show dedub_go fname 1 [⟨.str s, p1, s1⟩, ⟨.str s, p2, s2⟩] =
      .fails ("feature '" ++ fname ++ "': has a comment '" ++ s ++ "'")
    simp only [dedub_go, List.get?, hlt, Bool.false_eq_true, if_false, ne_eq,
      not_true_eq_false, h, if_true]
  · show dedub_go fname 1 [⟨.str s, p1, s1⟩, ⟨.str s, p2, s2⟩] = .ok [⟨.str s, p1, s1⟩]
    simp only [dedub_go, List.get?, hlt, Bool.false_eq_true, if_false, ne_eq,
      not_true_eq_false, h, List.eraseIdx]

end Autofix


namespace Autofix

theorem munge_existing_panics :
    ∀ values : List TomlItem, (∃ x ∈ values, x.val = .str "") →
      munge_existing values = .panics := by
  intro values
  induction values with
  | nil => rintro ⟨x, hx, _⟩; cases hx
  | cons y ys ih =>
    rintro ⟨x, hx, hxval⟩
    unfold munge_existing
    by_cases hcond : (match y.val with
      | .str s => s.data.isEmpty
      | .other => false) = true
    · rw [if_pos hcond]
    · rw [if_neg hcond]
      have hxs : x ∈ ys := by
        rcases List.mem_cons.mp hx with rfl | hmem
        · exfalso; apply hcond; rw [hxval]; rfl
        · exact hmem
      rw [ih ⟨x, hxs, hxval⟩]

/-- Claim C10: the feature operations are not total: sort_feature and
dedub_feature panic on an array containing a non-string value (here at
minimal inputs reaching the unwrap; on other inputs a sortedness error
may be returned first), and add_to_feature panics whenever any existing
entry of the array is the empty string. -/
theorem claim_C10_feature_ops_panic :
    sort_feature [⟨.str "a", "", ""⟩, ⟨.other, "", ""⟩] = .panics ∧
    dedub_feature "crate" "feat" [⟨.other, "", ""⟩] = .panics ∧
    ∀ (values : List TomlItem) (v : String),
      (∃ x ∈ values, x.val = .str "") → add_to_feature values v = .panics := by
  refine ⟨by decide, by decide, ?_⟩
  intro values v hex
  unfold add_to_feature
  rw [munge_existing_panics values hex]

/-- Witness for C10 at a one-element array holding the empty string. -/
theorem claim_C10_witness :
    add_to_feature [⟨.str "", "", ""⟩] "new" = .panics :=
  claim_C10_feature_ops_panic.2.2 [⟨.str "", "", ""⟩] "new"
    ⟨⟨.str "", "", ""⟩, List.mem_singleton.mpr rfl, rfl⟩

end Autofix


namespace Autofix

/-- Witness for the amended C5: with a comment on the later duplicate
dedub fails; with the comment only on the earlier duplicate it succeeds
and keeps that entry. -/
theorem claim_C5_witness :
    dedub_feature "crate" "feat" [⟨.str "a", "", ""⟩, ⟨.str "a", " # c", ""⟩] =
      .fails ("feature '" ++ "feat" ++ "': has a comment '" ++ "a" ++ "'") ∧
    dedub_feature "crate" "feat" [⟨.str "a", " # c", ""⟩, ⟨.str "a", "", ""⟩] =
      .ok [⟨.str "a", " # c", ""⟩] :=
  ⟨(claim_C5_dedub_amended "crate" "feat" "a" "" "" " # c" "").1 (by decide),
   (claim_C5_dedub_amended "crate" "feat" "a" " # c" "" "" "").2 (by decide)⟩

end Autofix

/-! ## src/config/workflow.rs: reference resolution (claim C9)

A workflow file is modelled as its workflows map: an association list
from workflow name to a list of steps, where a step is its list of
argument strings.  resolve_once scans the (current) workflows in order
for the first line starting with a dollar sign, substitutes it textually
from the cloned original map, and reports whether something changed;
into_resolved repeats while something changed.  The unbounded Rust
while loop is modelled with explicit fuel: a none result means the loop
is still running after that many iterations.  The panics inside the
scan (a missing dot in the reference, an out-of-range step index) are
the distinguished outcome; the parse and lookup failures are returned
errors (the model drops the trailing parse error detail of the index
message). -/

namespace Workflow

abbrev Workflows : Type := List (String × List (List String))

/-- Scan one step's lines for the first $name.index token and splice in
the referenced step's lines (step.0.remove(i) followed by inserting the
lines in reverse order at i).  none: no $-token in this step. -/
def step_resolve (wfs0 : Workflows) : List String → Option (PRes (List String))
  | [] => none
  | line :: rest =>
    match Str.stripPrefixChar line '$' with
    | some stripped =>
      some (
        match Str.splitOnceChar stripped '.' with
        | none => .panics
        | some (vname, idxs) =>
          match Str.parseU32 idxs with
          | none => .fails ("Failed to parse index '" ++ idxs ++ "' in line '" ++
              stripped ++ "'")
          | some index =>
            match wfs0.find? (fun w => w.1 = vname) with
            | none => .fails ("Failed to find workflow '" ++ vname ++ "' in line '" ++
                stripped ++ "'")
            | some w =>
              match w.2.get? index with
              | none => .panics
              | some value_step => .ok (value_step ++ rest))
    | none =>
      match step_resolve wfs0 rest with
      | none => none
      | some (.ok newrest) => some (.ok (line :: newrest))
      | some .panics => some .panics
      | some (.fails e) => some (.fails e)

/-- Scan the steps of one workflow. -/
def wf_resolve (wfs0 : Workflows) : List (List String) → Option (PRes (List (List String)))
  | [] => none
  | step :: rest =>
    match step_resolve wfs0 step with
    | some (.ok newstep) => some (.ok (newstep :: rest))
    | some .panics => some .panics
    | some (.fails e) => some (.fails e)
    | none =>
      match wf_resolve wfs0 rest with
      | none => none
      | some (.ok newrest) => some (.ok (step :: newrest))
      | some .panics => some .panics
      | some (.fails e) => some (.fails e)

/-- Scan all workflows of the (mutated) map, resolving against the
cloned original wfs0. -/
def wfs_resolve (wfs0 : Workflows) : Workflows → Option (PRes Workflows)
  | [] => none
  | (name, wf) :: rest =>
    match wf_resolve wfs0 wf with
    | some (.ok newwf) => some (.ok ((name, newwf) :: rest))
    | some .panics => some .panics
    | some (.fails e) => some (.fails e)
    | none =>
      match wfs_resolve wfs0 rest with
      | none => none
      | some (.ok newrest) => some (.ok ((name, wf) :: newrest))
      | some .panics => some .panics
      | some (.fails e) => some (.fails e)

/-- WorkflowFile::resolve_once: substitute the first reference found and
return whether something changed. -/
def resolve_once (wfs : Workflows) : PRes (Bool × Workflows) :=
  match wfs_resolve wfs wfs with
  | none => .ok (false, wfs)
  | some (.ok newwfs) => .ok (true, newwfs)
  | some .panics => .panics
  | some (.fails e) => .fails e

/-- WorkflowFile::into_resolved, the loop while self.resolve_once()? Ok,
with fuel: some means the loop finished (with the fixed point or an
error) within that many calls of resolve_once, none means it was still
running. -/
def into_resolved_fuel : Nat → Workflows → Option (PRes Workflows)
  | 0, _ => none
  | n + 1, wfs =>
    match resolve_once wfs with
    | .panics => some .panics
    | .fails e => some (.fails e)
    | .ok (changed, wfs') =>
      if changed then into_resolved_fuel n wfs' else some (.ok wfs')

/-- The self-referential workflow file: a: [["$a.0"]]. -/
def c9cyc : Workflows := [("a", [["$a.0"]])]

/-- Claim C9 is a code bug: resolve_once on the self-referential file
returns changed without changing anything (the spliced lines are the
line that was removed), so the unbounded resolution loop of
into_resolved never terminates; the code has no iteration cap. -/
theorem claim_C9_into_resolved_diverges :
    resolve_once c9cyc = .ok (true, c9cyc) ∧
    ∀ n : Nat, into_resolved_fuel n c9cyc = none := by
  have h1 : resolve_once c9cyc = .ok (true, c9cyc) := by decide
  refine ⟨h1, ?_⟩
  intro n
  induction n with
  | zero => rfl
  | succ n ih =>
    unfold into_resolved_fuel
    rw [h1]
    simpa using ih

end Workflow

end Zepter
